import Mathlib

set_option maxRecDepth 100000

/-!
# Verification of the JazzHarmonyQuiz maintenance scripts

This file gives a shallow embedding, over `List Char`, of the two Python
maintenance scripts of the repository:

* `update_xcode_paths.py` (the "Path Rewriter"): table-driven find-and-replace
  over the project descriptor text, in three passes (bare path, double-quoted
  path, `path = X;` / `name = X;` attribute forms), with a change counter that
  decides whether the file is written back and what the process exit code is.

* `add_vm_files.py` (the "Registrar"): six `re.sub(..., count = 1)` insertions
  of new records immediately after fixed anchor patterns, followed by an
  unconditional write-back and two fixed confirmation messages.

Python string operations are modelled faithfully: `str.replace` replaces all
non-overlapping occurrences scanning left to right, `str.count` counts the same
occurrences, `in` is the substring test, and `re.sub(p, r"\1" ++ ins, s,
count = 1)` for a literal anchor `p` inserts `ins` immediately after the
leftmost occurrence of the anchor.  The only genuine regular expression in the
sources (`/\* Home \*/ = \{[^}]+children = \(\n`) is modelled by a dedicated
matcher with Python's leftmost-match, greedy-with-backtracking semantics.
-/

namespace JazzHarmonyQuiz

/-! ## Python string primitives on `List Char` -/

/-- Python `pat in s` — substring test, scanning left to right. -/
def containsSub (pat : List Char) : List Char → Bool
  | [] => pat.isPrefixOf []
  | c :: rest => pat.isPrefixOf (c :: rest) || containsSub pat rest

/-- Fuel-driven scanner underlying `countOcc`; the fuel (instantiated with the
text's length) only makes the recursion structural. -/
def countOccGo (pat : List Char) : Nat → List Char → Nat
  | _, [] => 0
  | 0, _ => 0
  | fuel + 1, c :: rest =>
    if pat ≠ [] ∧ pat.isPrefixOf (c :: rest) then
      1 + countOccGo pat fuel ((c :: rest).drop pat.length)
    else
      countOccGo pat fuel rest

/-- Python `s.count(pat)` — number of non-overlapping occurrences of `pat`,
scanning left to right.  The sources only call it with nonempty `pat`;
for `pat = []` this returns `0`. -/
def countOcc (pat s : List Char) : Nat := countOccGo pat s.length s

/-- Fuel-driven scanner underlying `replaceAll`; the fuel (instantiated with
the text's length) only makes the recursion structural. -/
def replaceAllGo (pat new : List Char) : Nat → List Char → List Char
  | _, [] => []
  | 0, s => s
  | fuel + 1, c :: rest =>
    if pat ≠ [] ∧ pat.isPrefixOf (c :: rest) then
      new ++ replaceAllGo pat new fuel ((c :: rest).drop pat.length)
    else
      c :: replaceAllGo pat new fuel rest

/-- Python `s.replace(pat, new)` — replace all non-overlapping occurrences of
`pat` by `new`, scanning left to right.  The sources only call it with nonempty
`pat`; for `pat = []` this is the identity. -/
def replaceAll (pat new s : List Char) : List Char := replaceAllGo pat new s.length s

/-! ## The Path Rewriter (`update_xcode_paths.py`) -/

/-- `PATH_MAPPINGS` — old relative path to new relative path, in the source's
(dict insertion) order. -/
def PATH_MAPPINGS : List (List Char × List Char) := [
  ("Models/JazzChordDatabase.swift".data, "Core/Databases/ChordDatabase.swift".data),
  ("Models/JazzScaleDatabase.swift".data, "Core/Databases/ScaleDatabase.swift".data),
  ("Models/IntervalDatabase.swift".data, "Core/Databases/IntervalDatabase.swift".data),
  ("Models/ProgressionDatabase.swift".data, "Core/Databases/CadenceDatabase.swift".data),
  ("Models/CurriculumDatabase.swift".data, "Core/Databases/CurriculumDatabase.swift".data),
  ("Helpers/AudioManager.swift".data, "Core/Services/AudioManager.swift".data),
  ("Models/SpacedRepetition.swift".data, "Core/Services/SpacedRepetitionStore.swift".data),
  ("Models/CurriculumManager.swift".data, "Core/Services/CurriculumManager.swift".data),
  ("Models/SettingsManager.swift".data, "Core/Services/SettingsManager.swift".data)]

/-- `FILENAME_MAPPINGS` — old bare filename to new bare filename. -/
def FILENAME_MAPPINGS : List (List Char × List Char) := [
  ("JazzChordDatabase.swift".data, "ChordDatabase.swift".data),
  ("JazzScaleDatabase.swift".data, "ScaleDatabase.swift".data),
  ("ProgressionDatabase.swift".data, "CadenceDatabase.swift".data),
  ("SpacedRepetition.swift".data, "SpacedRepetitionStore.swift".data)]

/-- Python `f'"{p}"'` — wrap in double quotes. -/
def quoteWrap (p : List Char) : List Char := '"' :: (p ++ ['"'])

/-- Python `f'path = {f};'`. -/
def pathAttr (f : List Char) : List Char := "path = ".data ++ f ++ ";".data

/-- Python `f'name = {f};'`. -/
def nameAttr (f : List Char) : List Char := "name = ".data ++ f ++ ";".data

/-- One loop body of `update_project_file`:
`if old in content: count = content.count(old); content = content.replace(old, new);
changes_made += count`. -/
def applyRepl (m : List Char × List Char) (st : List Char × Nat) : List Char × Nat :=
  if containsSub m.1 st.1 then
    (replaceAll m.1 m.2 st.1, st.2 + countOcc m.1 st.1)
  else st

/-- Pass 1 of `update_project_file`: full relative paths. -/
def pass1 (st : List Char × Nat) : List Char × Nat :=
  PATH_MAPPINGS.foldl (fun st m => applyRepl m st) st

/-- Pass 2 of `update_project_file`: double-quoted relative paths. -/
def pass2 (st : List Char × Nat) : List Char × Nat :=
  PATH_MAPPINGS.foldl (fun st m => applyRepl (quoteWrap m.1, quoteWrap m.2) st) st

/-- Pass 3 of `update_project_file`: `path = X;` then `name = X;` attribute
forms, per filename-mapping entry. -/
def pass3 (st : List Char × Nat) : List Char × Nat :=
  FILENAME_MAPPINGS.foldl
    (fun st m => applyRepl (nameAttr m.1, nameAttr m.2) (applyRepl (pathAttr m.1, pathAttr m.2) st)) st

/-- The in-memory transformation of `update_project_file`: the transformed
content together with the aggregated `changes_made` counter. -/
def update_project_file (content : List Char) : List Char × Nat :=
  pass3 (pass2 (pass1 (content, 0)))

/-- The Rewriter's observable effect: final on-disk content, whether a write
occurred, and the process exit code.  `readOk = false` models the file read
raising an exception; the script's top-level `try/except` catches it, prints
the error, and exits 1 — the write statement (which appears only after the
read, guarded by `changes_made > 0`) is never reached. -/
def rewriterRun (disk : List Char) (readOk : Bool) : List Char × Bool × Nat :=
  if readOk then
    let st := update_project_file disk
    if 0 < st.2 then (st.1, true, 0) else (disk, false, 1)
  else (disk, false, 1)

/-! ## The Registrar (`add_vm_files.py`) -/

/-- `re.sub(anchor, r"\1" ++ ins, s, count = 1)` for a literal `anchor`:
insert `ins` immediately after the leftmost occurrence of `anchor`;
if the anchor does not occur, return the text unchanged. -/
def insertAfterFirst (anchor ins : List Char) : List Char → List Char
  | [] => []
  | c :: rest =>
    if anchor.isPrefixOf (c :: rest) then
      anchor ++ ins ++ ((c :: rest).drop anchor.length)
    else
      c :: insertAfterFirst anchor ins rest

/-- Literal head of the Home-group regex: `/\* Home \*/ = \{`. -/
def homeHead : List Char := "/* Home */ = \x7b".data

/-- Literal tail of the Home-group regex: `children = \(\n`. -/
def childrenTail : List Char := "children = (\n".data

/-- Backtracking for the greedy `[^}]+`: try `k, k-1, …, 1` characters for the
character class and take the largest `k` after which the literal tail matches. -/
def tryBacktrack (rest : List Char) : Nat → Option Nat
  | 0 => none
  | k + 1 =>
    if childrenTail.isPrefixOf (rest.drop (k + 1)) then some (k + 1)
    else tryBacktrack rest k

/-- Attempt to match the regex `/\* Home \*/ = \{[^}]+children = \(\n` at the
start of `t`; returns the length of the (greedy, leftmost-anchored) match. -/
def matchHomeAt (t : List Char) : Option Nat :=
  if homeHead.isPrefixOf t then
    match tryBacktrack (t.drop homeHead.length)
        ((t.drop homeHead.length).takeWhile (fun c => c != '\x7d')).length with
    | some k => some (homeHead.length + k + childrenTail.length)
    | none => none
  else none

/-- `re.search` for the Home-group regex: does it match at some position? -/
def homeSearch : List Char → Bool
  | [] => false
  | c :: rest => (matchHomeAt (c :: rest)).isSome || homeSearch rest

/-- `re.sub(home_pattern, r"\1" ++ ins, s, count = 1)`: insert `ins`
immediately after the leftmost match of the Home-group regex. -/
def subHomeOnce (ins : List Char) : List Char → List Char
  | [] => []
  | c :: rest =>
    match matchHomeAt (c :: rest) with
    | some len => (c :: rest).take len ++ ins ++ (c :: rest).drop len
    | none => c :: subHomeOnce ins rest

/-- Anchor 1: `/\* Begin PBXBuildFile section \*/\n`. -/
def buildFileAnchor : List Char := "/* Begin PBXBuildFile section */\n".data

/-- Insertion 1: the two new `PBXBuildFile` records. -/
def buildFileIns : List Char :=
  ("\t\t50D081DD15174045962DE9EF /* QuickPracticeViewModel.swift in Sources */ = \x7bisa = PBXBuildFile; fileRef = 8BF493D838B94315B19952FC /* QuickPracticeViewModel.swift */; \x7d;\n\t\tBCB4F13E032C46C7BE6BFC04 /* QuickPracticeViewModelTests.swift in Sources */ = \x7bisa = PBXBuildFile; fileRef = 7F9A7D96DD8847438527768A /* QuickPracticeViewModelTests.swift */; \x7d;\n").data

/-- Anchor 2: `/\* Begin PBXFileReference section \*/\n`. -/
def fileRefAnchor : List Char := "/* Begin PBXFileReference section */\n".data

/-- Insertion 2: the two new `PBXFileReference` records. -/
def fileRefIns : List Char :=
  ("\t\t8BF493D838B94315B19952FC /* QuickPracticeViewModel.swift */ = \x7bisa = PBXFileReference; lastKnownFileType = sourcecode.swift; path = QuickPracticeViewModel.swift; sourceTree = \"<group>\"; \x7d;\n\t\t7F9A7D96DD8847438527768A /* QuickPracticeViewModelTests.swift */ = \x7bisa = PBXFileReference; lastKnownFileType = sourcecode.swift; path = QuickPracticeViewModelTests.swift; sourceTree = \"<group>\"; \x7d;\n").data

/-- Anchor 3: the `QuickPracticeSession.swift` entry in the Home group. -/
def homeGroupAnchor : List Char :=
  "94QKPRS22F30000000000004 /* QuickPracticeSession.swift */,\n".data

/-- Insertion 3: the view-model file reference in the Home group. -/
def homeGroupIns : List Char :=
  "\t\t\t\t8BF493D838B94315B19952FC /* QuickPracticeViewModel.swift */,\n".data

/-- Insertion 4: the test file reference in the test Home group. -/
def testHomeIns : List Char :=
  "\t\t\t\t7F9A7D96DD8847438527768A /* QuickPracticeViewModelTests.swift */,\n".data

/-- Anchor 5: the `QuickPracticeSession.swift in Sources` build-phase entry. -/
def sourcesAnchor : List Char :=
  "94QKPRS12F30000000000003 /* QuickPracticeSession.swift in Sources */,\n".data

/-- Insertion 5: the view-model build-phase entry. -/
def sourcesIns : List Char :=
  "\t\t\t\t50D081DD15174045962DE9EF /* QuickPracticeViewModel.swift in Sources */,\n".data

/-- Anchor 6: the `QuizGameTests.swift in Sources` build-phase entry. -/
def testSourcesAnchor : List Char := "/* QuizGameTests.swift in Sources */,\n".data

/-- Insertion 6: the test build-phase entry. -/
def testSourcesIns : List Char :=
  "\t\t\t\tBCB4F13E032C46C7BE6BFC04 /* QuickPracticeViewModelTests.swift in Sources */,\n".data

/-- Registrar insertion 1 (`PBXBuildFile` section). -/
def regStep1 (t : List Char) : List Char := insertAfterFirst buildFileAnchor buildFileIns t

/-- Registrar insertion 2 (`PBXFileReference` section). -/
def regStep2 (t : List Char) : List Char := insertAfterFirst fileRefAnchor fileRefIns t

/-- Registrar insertion 3 (Home group children). -/
def regStep3 (t : List Char) : List Char := insertAfterFirst homeGroupAnchor homeGroupIns t

/-- Registrar insertion 4 (test Home group children), guarded by `re.search`. -/
def regStep4 (t : List Char) : List Char :=
  if homeSearch t then subHomeOnce testHomeIns t else t

/-- Registrar insertion 5 (main target Sources build phase). -/
def regStep5 (t : List Char) : List Char := insertAfterFirst sourcesAnchor sourcesIns t

/-- Registrar insertion 6 (test target Sources build phase), guarded by
`re.search`. -/
def regStep6 (t : List Char) : List Char :=
  if containsSub testSourcesAnchor t then insertAfterFirst testSourcesAnchor testSourcesIns t else t

/-- The Registrar's in-memory transformation: the six insertions in order. -/
def add_vm_files (content : List Char) : List Char :=
  regStep6 (regStep5 (regStep4 (regStep3 (regStep2 (regStep1 content)))))

/-- The two fixed confirmation messages printed by the Registrar. -/
def registrarMessages : List (List Char) :=
  ["✅ Added QuickPracticeViewModel.swift to project".data,
   "✅ Added QuickPracticeViewModelTests.swift to project".data]

/-- The Registrar's observable run: final on-disk content, whether a write
occurred, and the stdout lines.  The script unconditionally writes the
transformed text back and prints the two fixed messages. -/
def registrarRun (disk : List Char) : List Char × Bool × List (List Char) :=
  (add_vm_files disk, true, registrarMessages)

/-! ## Auxiliary notions used by the verification -/

/-- Number of positions at which `R` occurs in a text (occurrences may
overlap).  "The text contains two copies of `R`" is `2 ≤ numOcc R text`. -/
def numOcc (R : List Char) : List Char → Nat
  | [] => 0
  | c :: rest => (if R.isPrefixOf (c :: rest) then 1 else 0) + numOcc R rest

/-- The (pattern, replacement) pairs effectively used by Pass 2. -/
def pass2Pairs : List (List Char × List Char) :=
  PATH_MAPPINGS.map (fun m => (quoteWrap m.1, quoteWrap m.2))

/-- The (pattern, replacement) pairs effectively used by Pass 3, in execution
order (`path = X;` before `name = X;`, per entry). -/
def pass3Pairs : List (List Char × List Char) :=
  FILENAME_MAPPINGS.foldr
    (fun m acc => (pathAttr m.1, pathAttr m.2) :: (nameAttr m.1, nameAttr m.2) :: acc) []

/-- The old full relative paths (Pass 1 patterns). -/
def barePats : List (List Char) := PATH_MAPPINGS.map Prod.fst

/-- The `path = X;` / `name = X;` patterns (Pass 3 patterns). -/
def attrPats : List (List Char) := pass3Pairs.map Prod.fst

/-- Separation conditions between a monitored pattern `P` and a replacement
pair `m = (Q, N)`: `P` does not occur in `N`, no nonempty prefix of `N` is a
proper suffix of `P`, no nonempty suffix of `N` is a proper prefix of `P`, and
`N` does not occur inside `P` at a positive offset.  Under these conditions a
`replaceAll _ N` step can never create a new occurrence of `P`, and
`replaceAll P N` leaves no occurrence of `P` behind. -/
abbrev SepPair (P : List Char) (m : List Char × List Char) : Prop :=
  P ≠ [] ∧ m.2 ≠ [] ∧
  containsSub P m.2 = false ∧
  (∀ k < P.length, 0 < k → k ≤ m.2.length → m.2.take k ≠ P.drop (P.length - k)) ∧
  (∀ k < P.length, 0 < k → k ≤ m.2.length → m.2.drop (m.2.length - k) ≠ P.take k) ∧
  (∀ j < P.length, 0 < j → (P.drop j).take m.2.length ≠ m.2)

/-- No-split conditions between the tail `A` of an insertion anchor and a
record text `R`: `A` does not occur in `R` and no nonempty suffix of `A` is a
proper prefix of `R`.  Under these conditions an insertion point placed
immediately after an occurrence of `A` can never fall strictly inside an
occurrence of `R`, so insertions never destroy existing copies of `R`. -/
abbrev NoSplit (A R : List Char) : Prop :=
  containsSub A R = false ∧
  ∀ k < A.length + 1, 0 < k → k < R.length → A.drop (A.length - k) ≠ R.take k

/-- The no-split conditions a record `R` needs against the insertion points of
all six Registrar steps (the five literal anchors, and `childrenTail` — the
fixed tail of every Home-group regex match). -/
abbrev RecordSafe (R : List Char) : Prop :=
  R ≠ [] ∧ NoSplit buildFileAnchor R ∧ NoSplit fileRefAnchor R ∧
  NoSplit homeGroupAnchor R ∧ NoSplit childrenTail R ∧
  NoSplit sourcesAnchor R ∧ NoSplit testSourcesAnchor R

/-- The concrete input text of the spec's concrete Rewriter scenario: a bare
old path, a double-quoted old path, and a `path = X;` attribute. -/
def c1Input : List Char :=
  "Models/JazzChordDatabase.swift\n\"Models/JazzChordDatabase.swift\"\npath = JazzChordDatabase.swift;\n".data

/-- A text containing all six Registrar anchors (used to instantiate the
universally quantified Registrar theorems). -/
def regAllAnchorsText : List Char :=
  buildFileAnchor ++ fileRefAnchor ++ homeGroupAnchor ++
    "/* Home */ = \x7bZ children = (\n".data ++ sourcesAnchor ++ testSourcesAnchor

/-- A text containing no Registrar anchor. -/
def regNoAnchorsText : List Char := "zzz".data

/-! ## Basic lemmas about the string primitives -/
/-- The fuel is irrelevant as soon as it dominates the text's length. -/
theorem countOccGo_congr (pat : List Char) : ∀ {f1 f2 : Nat} {s : List Char},
    s.length ≤ f1 → s.length ≤ f2 → countOccGo pat f1 s = countOccGo pat f2 s := by
  intro f1
  induction f1 with
  | zero =>
    intro f2 s h1 _
    have hs : s = [] := List.eq_nil_of_length_eq_zero (Nat.le_zero.mp h1)
    subst hs
    cases f2 <;> rfl
  | succ f ih =>
    intro f2 s h1 h2
    cases s with
    | nil => cases f2 <;> rfl
    | cons c rest =>
      cases f2 with
      | zero => exact absurd h2 (by simp)
      | succ g =>
        simp only [countOccGo]
        by_cases hc : pat ≠ [] ∧ pat.isPrefixOf (c :: rest)
        · simp only [if_pos hc]
          have hp : 0 < pat.length := List.length_pos.mpr hc.1
          have hd : ((c :: rest).drop pat.length).length ≤ f := by
            simp only [List.length_drop, List.length_cons]
            simp only [List.length_cons] at h1
            omega
          have hd2 : ((c :: rest).drop pat.length).length ≤ g := by
            simp only [List.length_drop, List.length_cons]
            simp only [List.length_cons] at h2
            omega
          rw [ih hd hd2]
        · simp only [if_neg hc]
          have hr : rest.length ≤ f := by simp only [List.length_cons] at h1; omega
          have hr2 : rest.length ≤ g := by simp only [List.length_cons] at h2; omega
          rw [ih hr hr2]

/-- The fuel is irrelevant as soon as it dominates the text's length. -/
theorem replaceAllGo_congr (pat new : List Char) : ∀ {f1 f2 : Nat} {s : List Char},
    s.length ≤ f1 → s.length ≤ f2 → replaceAllGo pat new f1 s = replaceAllGo pat new f2 s := by
  intro f1
  induction f1 with
  | zero =>
    intro f2 s h1 _
    have hs : s = [] := List.eq_nil_of_length_eq_zero (Nat.le_zero.mp h1)
    subst hs
    cases f2 <;> rfl
  | succ f ih =>
    intro f2 s h1 h2
    cases s with
    | nil => cases f2 <;> rfl
    | cons c rest =>
      cases f2 with
      | zero => exact absurd h2 (by simp)
      | succ g =>
        simp only [replaceAllGo]
        by_cases hc : pat ≠ [] ∧ pat.isPrefixOf (c :: rest)
        · simp only [if_pos hc]
          have hp : 0 < pat.length := List.length_pos.mpr hc.1
          have hd : ((c :: rest).drop pat.length).length ≤ f := by
            simp only [List.length_drop, List.length_cons]
            simp only [List.length_cons] at h1
            omega
          have hd2 : ((c :: rest).drop pat.length).length ≤ g := by
            simp only [List.length_drop, List.length_cons]
            simp only [List.length_cons] at h2
            omega
          rw [ih hd hd2]
        · simp only [if_neg hc]
          have hr : rest.length ≤ f := by simp only [List.length_cons] at h1; omega
          have hr2 : rest.length ≤ g := by simp only [List.length_cons] at h2; omega
          rw [ih hr hr2]

@[simp] theorem countOcc_nil (pat : List Char) : countOcc pat [] = 0 := rfl

/-- One-step unfolding of `countOcc`, matching the Python scan. -/
theorem countOcc_cons (pat : List Char) (c : Char) (rest : List Char) :
    countOcc pat (c :: rest) =
      if pat ≠ [] ∧ pat.isPrefixOf (c :: rest) then
        1 + countOcc pat ((c :: rest).drop pat.length)
      else
        countOcc pat rest := by
  show countOccGo pat (rest.length + 1) (c :: rest) = _
  simp only [countOccGo]
  by_cases hc : pat ≠ [] ∧ pat.isPrefixOf (c :: rest)
  · simp only [if_pos hc]
    have hp : 0 < pat.length := List.length_pos.mpr hc.1
    have hd : ((c :: rest).drop pat.length).length ≤ rest.length := by
      simp only [List.length_drop, List.length_cons]; omega
    rw [countOccGo_congr pat hd (Nat.le_refl _)]
    rfl
  · simp only [if_neg hc]
    rfl

@[simp] theorem replaceAll_nil (pat new : List Char) : replaceAll pat new [] = [] := rfl

/-- One-step unfolding of `replaceAll`, matching the Python scan. -/
theorem replaceAll_cons (pat new : List Char) (c : Char) (rest : List Char) :
    replaceAll pat new (c :: rest) =
      if pat ≠ [] ∧ pat.isPrefixOf (c :: rest) then
        new ++ replaceAll pat new ((c :: rest).drop pat.length)
      else
        c :: replaceAll pat new rest := by
  show replaceAllGo pat new (rest.length + 1) (c :: rest) = _
  simp only [replaceAllGo]
  by_cases hc : pat ≠ [] ∧ pat.isPrefixOf (c :: rest)
  · simp only [if_pos hc]
    have hp : 0 < pat.length := List.length_pos.mpr hc.1
    have hd : ((c :: rest).drop pat.length).length ≤ rest.length := by
      simp only [List.length_drop, List.length_cons]; omega
    rw [replaceAllGo_congr pat new hd (Nat.le_refl _)]
    rfl
  · simp only [if_neg hc]
    rfl


/-- `containsSub` decides the substring (infix) relation. -/
theorem containsSub_iff (p : List Char) : ∀ s : List Char, containsSub p s = true ↔ p <:+: s := by
  intro s
  induction s with
  | nil => simp [containsSub]
  | cons c rest ih =>
    simp only [containsSub, Bool.or_eq_true, List.isPrefixOf_iff_prefix, ih,
      List.infix_cons_iff]

/-- An occurrence of `P` in `A ++ B` lies in `A`, lies in `B`, or straddles the
boundary, splitting into a nonempty suffix of `A` and a nonempty prefix of
`B`. -/
theorem infix_append_split {α : Type} {P A B : List α} (h : P <:+: A ++ B) :
    P <:+: A ∨ P <:+: B ∨
      ∃ p q, p ≠ [] ∧ q ≠ [] ∧ P = p ++ q ∧ p <:+ A ∧ q <+: B := by
  induction A generalizing P with
  | nil => exact Or.inr (Or.inl (List.nil_append B ▸ h))
  | cons a A ih =>
    rw [List.cons_append, List.infix_cons_iff] at h
    rcases h with h | h
    · rcases List.prefix_cons_iff.mp h with h0 | ⟨t, rfl, ht⟩
      · subst h0; exact Or.inl List.nil_infix
      · by_cases hle : t.length ≤ A.length
        · have h1 : t = (A ++ B).take t.length := List.prefix_iff_eq_take.mp ht
          rw [List.take_append_of_le_length hle] at h1
          have htA : t <+: A := by
            rw [h1]; exact List.take_prefix _ _
          exact Or.inl (List.cons_prefix_cons.mpr ⟨rfl, htA⟩).isInfix
        · push_neg at hle
          have hA : A <+: t :=
            List.prefix_of_prefix_length_le (List.prefix_append A B) ht (Nat.le_of_lt hle)
          obtain ⟨r, rfl⟩ := hA
          have hr : r <+: B := (List.prefix_append_right_inj A).mp ht
          by_cases hrnil : r = []
          · subst hrnil
            refine Or.inl ?_
            rw [List.append_nil]
          · exact Or.inr (Or.inr ⟨a :: A, r, by simp, hrnil, by simp, List.suffix_refl _, hr⟩)
    · rcases ih h with h | h | ⟨p, q, hp, hq, hPq, hpA, hqB⟩
      · exact Or.inl (List.infix_cons h)
      · exact Or.inr (Or.inl h)
      · exact Or.inr (Or.inr ⟨p, q, hp, hq, hPq, hpA.trans (List.suffix_cons a A), hqB⟩)

/-- If a proper suffix `t` of a monitored pattern `P = x ++ t` (with `x ≠ []`)
is a prefix of the output of a `replaceAll _ N` scan, then it was already a
prefix of the input: the separation conditions prevent the replacement text
`N` from supplying the missing leading characters of an occurrence of `P`. -/
theorem prefix_of_replaceAll {P N Q : List Char}
    (hN : N ≠ [])
    (hPS : ∀ k < P.length, 0 < k → k ≤ N.length → N.take k ≠ P.drop (P.length - k))
    (hNin : ∀ j < P.length, 0 < j → (P.drop j).take N.length ≠ N) :
    ∀ (s t x : List Char), x ≠ [] → P = x ++ t →
      t <+: replaceAll Q N s → t <+: s := by
  intro s
  induction s with
  | nil =>
    intro t x _ _ hpre
    rw [replaceAll_nil] at hpre
    exact hpre
  | cons c rest ih =>
    intro t x hx hP hpre
    rw [replaceAll_cons] at hpre
    by_cases htnil : t = []
    · subst htnil; exact List.nil_prefix
    split_ifs at hpre with hQ
    · -- the scan matched `Q` here and emitted `N`
      exfalso
      by_cases hlen : t.length ≤ N.length
      · have h1 : t = (N ++ replaceAll Q N ((c :: rest).drop Q.length)).take t.length :=
          List.prefix_iff_eq_take.mp hpre
        rw [List.take_append_of_le_length hlen] at h1
        have hkP : t.length < P.length := by
          rw [hP, List.length_append]
          have : 0 < x.length := List.length_pos.mpr hx
          omega
        have hdrop : P.drop (P.length - t.length) = t := by
          rw [hP, List.length_append, Nat.add_sub_cancel, List.drop_left]
        exact hPS t.length hkP (List.length_pos.mpr htnil) hlen (h1 ▸ hdrop.symm)
      · push_neg at hlen
        have hNt : N <+: t :=
          List.prefix_of_prefix_length_le (List.prefix_append _ _) hpre (Nat.le_of_lt hlen)
        obtain ⟨r, rfl⟩ := hNt
        have hjP : x.length < P.length := by
          rw [hP, List.length_append, List.length_append]
          have : 0 < N.length := List.length_pos.mpr hN
          omega
        have : (P.drop x.length).take N.length = N := by
          rw [hP, List.drop_left, List.take_append_of_le_length (Nat.le_refl _)]
          simp
        exact hNin x.length hjP (List.length_pos.mpr hx) this
    · -- no match here: the head character is kept
      obtain ⟨t', rfl, ht'⟩ : ∃ t', t = c :: t' ∧ t' <+: replaceAll Q N rest := by
        rcases List.prefix_cons_iff.mp hpre with h0 | ⟨t', rfl, ht'⟩
        · exact absurd h0 htnil
        · exact ⟨t', rfl, ht'⟩
      have : t' <+: rest := by
        refine ih t' (x ++ [c]) (by simp) ?_ ht'
        rw [hP, List.append_cons]
      exact List.cons_prefix_cons.mpr ⟨rfl, this⟩

/-- Under the separation conditions, a `replaceAll _ N` step cannot create an
occurrence of the monitored pattern `P` where none existed. -/
theorem replaceAll_preserve {P N Q : List Char}
    (hP : P ≠ []) (hN : N ≠ [])
    (hPinN : containsSub P N = false)
    (hPS : ∀ k < P.length, 0 < k → k ≤ N.length → N.take k ≠ P.drop (P.length - k))
    (hSN : ∀ k < P.length, 0 < k → k ≤ N.length → N.drop (N.length - k) ≠ P.take k)
    (hNin : ∀ j < P.length, 0 < j → (P.drop j).take N.length ≠ N) :
    ∀ s : List Char, ¬ P <:+: s → ¬ P <:+: replaceAll Q N s := by
  suffices h : ∀ (n : Nat) (s : List Char), s.length ≤ n →
      ¬ P <:+: s → ¬ P <:+: replaceAll Q N s from
    fun s => h s.length s (Nat.le_refl _)
  intro n
  induction n with
  | zero =>
    intro s hlen hs
    have : s = [] := List.eq_nil_of_length_eq_zero (Nat.le_zero.mp hlen)
    subst this
    rw [replaceAll_nil]; exact hs
  | succ n ih =>
    intro s hlen hs hout
    cases s with
    | nil => rw [replaceAll_nil] at hout; exact hs hout
    | cons c rest =>
      rw [replaceAll_cons] at hout
      split_ifs at hout with hQ
      · rcases infix_append_split hout with h | h | ⟨p, q, hpne, hqne, hPpq, hpN, hqpre⟩
        · rw [← containsSub_iff, hPinN] at h
          exact Bool.false_ne_true h
        · have hQpos : 0 < Q.length := List.length_pos.mpr hQ.1
          have hdlen : ((c :: rest).drop Q.length).length ≤ n := by
            simp only [List.length_drop, List.length_cons]
            simp only [List.length_cons] at hlen
            omega
          have hdfree : ¬ P <:+: (c :: rest).drop Q.length := fun hinf =>
            hs (hinf.trans (List.drop_suffix _ _).isInfix)
          exact ih _ hdlen hdfree h
        · have hplen : p.length < P.length := by
            rw [hPpq, List.length_append]
            have : 0 < q.length := List.length_pos.mpr hqne
            omega
          have hpN' : N.drop (N.length - p.length) = p := (List.suffix_iff_eq_drop.mp hpN).symm
          have hptake : P.take p.length = p := by
            rw [hPpq, List.take_append_of_le_length (Nat.le_refl _), List.take_length]
          exact hSN p.length hplen (List.length_pos.mpr hpne) hpN.length_le
            (by rw [hpN', hptake])
      · rcases List.infix_cons_iff.mp hout with hpre | hinf
        · rcases List.prefix_cons_iff.mp hpre with h0 | ⟨t, hPt, ht⟩
          · exact hP h0
          · have : t <+: rest :=
              prefix_of_replaceAll hN hPS hNin rest t [c] (by simp) (by rw [hPt]; rfl) ht
            have hPc : P <+: c :: rest := by
              rw [hPt]; exact List.cons_prefix_cons.mpr ⟨rfl, this⟩
            exact hs hPc.isInfix
        · have hrlen : rest.length ≤ n := by
            simp only [List.length_cons] at hlen; omega
          have hrfree : ¬ P <:+: rest := fun h => hs (List.infix_cons h)
          exact ih rest hrlen hrfree hinf

/-- Under the separation conditions, `replaceAll P N` leaves no occurrence of
`P` in its output. -/
theorem replaceAll_removes {P N : List Char}
    (hP : P ≠ []) (hN : N ≠ [])
    (hPinN : containsSub P N = false)
    (hPS : ∀ k < P.length, 0 < k → k ≤ N.length → N.take k ≠ P.drop (P.length - k))
    (hSN : ∀ k < P.length, 0 < k → k ≤ N.length → N.drop (N.length - k) ≠ P.take k)
    (hNin : ∀ j < P.length, 0 < j → (P.drop j).take N.length ≠ N) :
    ∀ s : List Char, ¬ P <:+: replaceAll P N s := by
  suffices h : ∀ (n : Nat) (s : List Char), s.length ≤ n → ¬ P <:+: replaceAll P N s from
    fun s => h s.length s (Nat.le_refl _)
  intro n
  induction n with
  | zero =>
    intro s hlen
    have : s = [] := List.eq_nil_of_length_eq_zero (Nat.le_zero.mp hlen)
    subst this
    rw [replaceAll_nil]
    intro h
    exact hP (List.infix_nil.mp h)
  | succ n ih =>
    intro s hlen hout
    cases s with
    | nil =>
      rw [replaceAll_nil] at hout
      exact hP (List.infix_nil.mp hout)
    | cons c rest =>
      rw [replaceAll_cons] at hout
      split_ifs at hout with hQ
      · rcases infix_append_split hout with h | h | ⟨p, q, hpne, hqne, hPpq, hpN, hqpre⟩
        · rw [← containsSub_iff, hPinN] at h
          exact Bool.false_ne_true h
        · have hQpos : 0 < P.length := List.length_pos.mpr hQ.1
          have hdlen : ((c :: rest).drop P.length).length ≤ n := by
            simp only [List.length_drop, List.length_cons]
            simp only [List.length_cons] at hlen
            omega
          exact ih _ hdlen h
        · have hplen : p.length < P.length := by
            rw [hPpq, List.length_append]
            have : 0 < q.length := List.length_pos.mpr hqne
            omega
          have hpN' : N.drop (N.length - p.length) = p := (List.suffix_iff_eq_drop.mp hpN).symm
          have hptake : P.take p.length = p := by
            rw [hPpq, List.take_append_of_le_length (Nat.le_refl _), List.take_length]
          exact hSN p.length hplen (List.length_pos.mpr hpne) hpN.length_le
            (by rw [hpN', hptake])
      · have hnp : ¬ P <+: (c :: rest) := fun hpre =>
          hQ ⟨hP, List.isPrefixOf_iff_prefix.mpr hpre⟩
        rcases List.infix_cons_iff.mp hout with hpre | hinf
        · rcases List.prefix_cons_iff.mp hpre with h0 | ⟨t, hPt, ht⟩
          · exact hP h0
          · have : t <+: rest :=
              prefix_of_replaceAll hN hPS hNin rest t [c] (by simp) (by rw [hPt]; rfl) ht
            exact hnp (hPt ▸ List.cons_prefix_cons.mpr ⟨rfl, this⟩)
        · have hrlen : rest.length ≤ n := by
            simp only [List.length_cons] at hlen; omega
          exact ih rest hrlen hinf

/-! ## Pass-level lemmas for the Path Rewriter -/

/-- One rewrite step preserves absence of a separated pattern. -/
theorem applyRepl_preserve {P : List Char} {m : List Char × List Char}
    (hsep : SepPair P m) {st : List Char × Nat}
    (h : ¬ P <:+: st.1) : ¬ P <:+: (applyRepl m st).1 := by
  obtain ⟨h1, h2, h3, h4, h5, h6⟩ := hsep
  unfold applyRepl
  split_ifs with hg
  · exact replaceAll_preserve h1 h2 h3 h4 h5 h6 st.1 h
  · exact h

/-- After its own rewrite step, a separated pattern is absent. -/
theorem applyRepl_removes {m : List Char × List Char}
    (hsep : SepPair m.1 m) (st : List Char × Nat) :
    ¬ m.1 <:+: (applyRepl m st).1 := by
  obtain ⟨h1, h2, h3, h4, h5, h6⟩ := hsep
  unfold applyRepl
  split_ifs with hg
  · exact replaceAll_removes h1 h2 h3 h4 h5 h6 st.1
  · intro h
    rw [← containsSub_iff] at h
    exact hg h

/-- A no-match rewrite step leaves the state unchanged. -/
theorem applyRepl_id {m : List Char × List Char} {st : List Char × Nat}
    (h : containsSub m.1 st.1 = false) : applyRepl m st = st := by
  unfold applyRepl
  rw [h]
  rfl

/-- A sequence of rewrite steps preserves absence of a pattern separated from
all of their replacements. -/
theorem foldl_applyRepl_preserve {P : List Char} (ms : List (List Char × List Char))
    (hsep : ∀ m ∈ ms, SepPair P m) :
    ∀ st : List Char × Nat, ¬ P <:+: st.1 →
      ¬ P <:+: (ms.foldl (fun st m => applyRepl m st) st).1 := by
  induction ms with
  | nil => exact fun st h => h
  | cons m ms ih =>
    intro st h
    rw [List.foldl_cons]
    exact ih (fun m' hm' => hsep m' (List.mem_cons_of_mem _ hm')) _
      (applyRepl_preserve (hsep m (List.mem_cons_self _ _)) h)

/-- After a sequence of rewrite steps whose patterns are pairwise separated
from all the replacements, none of the patterns occurs in the result. -/
theorem foldl_applyRepl_clears (ms : List (List Char × List Char))
    (hsep : ∀ m ∈ ms, ∀ m' ∈ ms, SepPair m.1 m') :
    ∀ (st : List Char × Nat), ∀ m ∈ ms,
      ¬ m.1 <:+: (ms.foldl (fun st m => applyRepl m st) st).1 := by
  induction ms with
  | nil => intro st m hm; cases hm
  | cons m0 ms ih =>
    intro st m hm
    rw [List.foldl_cons]
    rcases List.mem_cons.mp hm with rfl | hm'
    · exact foldl_applyRepl_preserve ms
        (fun m' hm' => hsep m (List.mem_cons_self _ _) m' (List.mem_cons_of_mem _ hm')) _
        (applyRepl_removes (hsep m (List.mem_cons_self _ _) m (List.mem_cons_self _ _)) st)
    · exact ih
        (fun a ha b hb => hsep a (List.mem_cons_of_mem _ ha) b (List.mem_cons_of_mem _ hb))
        _ m hm'

/-- A sequence of rewrite steps none of whose patterns occurs is the
identity. -/
theorem foldl_applyRepl_id (ms : List (List Char × List Char)) :
    ∀ st : List Char × Nat, (∀ m ∈ ms, containsSub m.1 st.1 = false) →
      ms.foldl (fun st m => applyRepl m st) st = st := by
  induction ms with
  | nil => exact fun st _ => rfl
  | cons m0 ms ih =>
    intro st h
    rw [List.foldl_cons, applyRepl_id (h m0 (List.mem_cons_self _ _))]
    exact ih st (fun m hm => h m (List.mem_cons_of_mem _ hm))

/-- Pass 2 is the rewrite sequence over `pass2Pairs`. -/
theorem pass2_eq_foldl (st : List Char × Nat) :
    pass2 st = pass2Pairs.foldl (fun st m => applyRepl m st) st := by
  unfold pass2 pass2Pairs PATH_MAPPINGS
  simp only [List.map_cons, List.map_nil, List.foldl_cons, List.foldl_nil]

/-- Pass 3 is the rewrite sequence over `pass3Pairs`. -/
theorem pass3_eq_foldl (st : List Char × Nat) :
    pass3 st = pass3Pairs.foldl (fun st m => applyRepl m st) st := by
  unfold pass3 pass3Pairs FILENAME_MAPPINGS
  simp only [List.foldr_cons, List.foldr_nil, List.foldl_cons, List.foldl_nil]

/-- Pairwise separation of the Pass 1 patterns from the Pass 1 replacements. -/
theorem sep_pass1 : ∀ m ∈ PATH_MAPPINGS, ∀ m' ∈ PATH_MAPPINGS, SepPair m.1 m' := by decide

/-- Separation of the Pass 1 patterns from the Pass 2 replacements. -/
theorem sep_pass1_pass2 : ∀ m ∈ PATH_MAPPINGS, ∀ m' ∈ pass2Pairs, SepPair m.1 m' := by decide

/-- Separation of the Pass 1 patterns from the Pass 3 replacements. -/
theorem sep_pass1_pass3 : ∀ m ∈ PATH_MAPPINGS, ∀ m' ∈ pass3Pairs, SepPair m.1 m' := by decide

/-- Pairwise separation of the Pass 3 patterns from the Pass 3 replacements. -/
theorem sep_pass3 : ∀ m ∈ pass3Pairs, ∀ m' ∈ pass3Pairs, SepPair m.1 m' := by decide

/-- After Pass 1, no old full relative path occurs in the text. -/
theorem pass1_clears (st : List Char × Nat) :
    ∀ m ∈ PATH_MAPPINGS, ¬ m.1 <:+: (pass1 st).1 :=
  foldl_applyRepl_clears PATH_MAPPINGS sep_pass1 st

/-- The bare old path occurs inside its double-quoted form. -/
theorem bare_infix_quoted (p : List Char) : p <:+: quoteWrap p := ⟨['"'], ['"'], rfl⟩

/-- A pattern that does not occur is a `containsSub` miss. -/
theorem containsSub_eq_false {p t : List Char} (h : ¬ p <:+: t) :
    containsSub p t = false := by
  rw [← containsSub_iff] at h
  exact Bool.not_eq_true _ ▸ h

/-- If no old full relative path occurs, Pass 2 is the identity: every quoted
pattern contains the bare old path as a substring. -/
theorem pass2_noop (st : List Char × Nat)
    (hbare : ∀ m ∈ PATH_MAPPINGS, ¬ m.1 <:+: st.1) : pass2 st = st := by
  rw [pass2_eq_foldl]
  refine foldl_applyRepl_id pass2Pairs st ?_
  intro m hm
  obtain ⟨m0, hm0, rfl⟩ := List.mem_map.mp hm
  exact containsSub_eq_false fun h => hbare m0 hm0 ((bare_infix_quoted m0.1).trans h)

/-- After one full run of `update_project_file`, neither the old full relative
paths nor the old attribute forms occur in the resulting text. -/
theorem update_project_file_clears (content : List Char) :
    (∀ m ∈ PATH_MAPPINGS, ¬ m.1 <:+: (update_project_file content).1) ∧
    (∀ m ∈ pass3Pairs, ¬ m.1 <:+: (update_project_file content).1) := by
  constructor
  · intro m hm
    unfold update_project_file
    rw [pass3_eq_foldl]
    refine foldl_applyRepl_preserve pass3Pairs (sep_pass1_pass3 m hm) _ ?_
    rw [pass2_eq_foldl]
    refine foldl_applyRepl_preserve pass2Pairs (sep_pass1_pass2 m hm) _ ?_
    exact pass1_clears (content, 0) m hm
  · intro m hm
    unfold update_project_file
    rw [pass3_eq_foldl]
    exact foldl_applyRepl_clears pass3Pairs sep_pass3 _ m hm

/-- On a text in which neither the old full paths nor the old attribute forms
occur, every pass of `update_project_file` is the identity and the reported
change count is zero. -/
theorem update_project_file_noop (t : List Char)
    (hbare : ∀ m ∈ PATH_MAPPINGS, ¬ m.1 <:+: t)
    (hattr : ∀ m ∈ pass3Pairs, ¬ m.1 <:+: t) :
    pass1 (t, 0) = (t, 0) ∧ pass2 (t, 0) = (t, 0) ∧ pass3 (t, 0) = (t, 0) ∧
      update_project_file t = (t, 0) := by
  have h1 : pass1 (t, 0) = (t, 0) :=
    foldl_applyRepl_id PATH_MAPPINGS (t, 0) (fun m hm => containsSub_eq_false (hbare m hm))
  have h2 : pass2 (t, 0) = (t, 0) := pass2_noop (t, 0) hbare
  have h3 : pass3 (t, 0) = (t, 0) := by
    rw [pass3_eq_foldl]
    exact foldl_applyRepl_id pass3Pairs (t, 0) (fun m hm => containsSub_eq_false (hattr m hm))
  refine ⟨h1, h2, h3, ?_⟩
  unfold update_project_file
  rw [h1, h2, h3]

/-! ## Claim theorems for the Path Rewriter -/

/-- **C1** — concrete scenario: on an input containing the bare old path, the
double-quoted old path and the `path = …;` attribute form, one run of
`update_project_file` produces a text containing the bare new path, the
double-quoted new path and the new attribute form, and `changes_made` is
exactly 3.  (Pass 1 accounts for 2 of the changes — it also rewrites the
path inside the quotes — and Pass 3 for the third.) -/
theorem rewriter_concrete_scenario :
    containsSub "Models/JazzChordDatabase.swift".data c1Input = true ∧
    containsSub (quoteWrap "Models/JazzChordDatabase.swift".data) c1Input = true ∧
    containsSub (pathAttr "JazzChordDatabase.swift".data) c1Input = true ∧
    containsSub "Core/Databases/ChordDatabase.swift".data (update_project_file c1Input).1 = true ∧
    containsSub (quoteWrap "Core/Databases/ChordDatabase.swift".data)
      (update_project_file c1Input).1 = true ∧
    containsSub (pathAttr "ChordDatabase.swift".data) (update_project_file c1Input).1 = true ∧
    (update_project_file c1Input).2 = 3 := by decide

/-- **C2** (refuted as stated): there is no input text on which Pass 2 changes
anything after Pass 1 has run — quoted occurrences of an old path contain the
bare old path, which Pass 1 (whose replacement is not guarded by quotes)
already rewrote, and no Pass 1 or Pass 2 replacement can recreate one. -/
theorem pass2_fires_counterexample :
    ¬ ∃ c : List Char, pass2 (pass1 (c, 0)) ≠ pass1 (c, 0) :=
  fun ⟨c, hne⟩ => hne (pass2_noop _ (pass1_clears (c, 0)))

/-- **C2** (amended): after Pass 1 has replaced all occurrences of the old
relative paths, Pass 2 never finds a quoted occurrence: on every input the
quoted pass leaves both the text and the change count unchanged, because the
double-quoted form contains the bare path which Pass 1 already eliminated. -/
theorem pass2_noop_after_pass1 (c : List Char) :
    pass2 (pass1 (c, 0)) = pass1 (c, 0) :=
  pass2_noop _ (pass1_clears (c, 0))

/-- **C3** — idempotence: running `update_project_file` a second time on the
text produced by a first run performs zero replacements in each of the three
passes, reports zero total changes, does not write the file, and exits with
code 1. -/
theorem rewriter_idempotent (c : List Char) :
    pass1 ((update_project_file c).1, 0) = ((update_project_file c).1, 0) ∧
    pass2 ((update_project_file c).1, 0) = ((update_project_file c).1, 0) ∧
    pass3 ((update_project_file c).1, 0) = ((update_project_file c).1, 0) ∧
    update_project_file (update_project_file c).1 = ((update_project_file c).1, 0) ∧
    rewriterRun (update_project_file c).1 true = ((update_project_file c).1, false, 1) := by
  obtain ⟨hbare, hattr⟩ := update_project_file_clears c
  obtain ⟨h1, h2, h3, h4⟩ := update_project_file_noop (update_project_file c).1 hbare hattr
  refine ⟨h1, h2, h3, h4, ?_⟩
  unfold rewriterRun
  rw [if_pos rfl, h4]
  rfl

/-- **C4** — write/exit discipline: the file is written back iff the change
count is positive; the process exits 0 iff at least one replacement occurred;
with zero replacements the file is unchanged and the exit code is 1; and an
exception (modelled by `readOk = false`) also leaves the file unchanged with
exit code 1. -/
theorem rewriter_write_exit (c : List Char) :
    ((rewriterRun c true).2.1 = true ↔ 0 < (update_project_file c).2) ∧
    ((rewriterRun c true).2.2 = 0 ↔ 0 < (update_project_file c).2) ∧
    ((update_project_file c).2 = 0 → rewriterRun c true = (c, false, 1)) ∧
    rewriterRun c false = (c, false, 1) := by
  unfold rewriterRun
  by_cases h : 0 < (update_project_file c).2
  · rw [if_pos rfl, if_pos h]
    refine ⟨by simp [h], by simp [h], fun h0 => absurd h (by omega), rfl⟩
  · rw [if_pos rfl, if_neg h]
    refine ⟨by simp [h], by simp [h], fun _ => rfl, rfl⟩

/-- Witness for **C4** at concrete inputs: the empty text needs no change, so
no write occurs and the exit code is 1. -/
theorem rewriter_write_exit_witness : rewriterRun [] true = ([], false, 1) :=
  (rewriter_write_exit []).2.2.1 (by decide)

/-- **C10** — read failure is caught before any write: the descriptor file is
unchanged, no write is attempted, and the process exits with code 1. -/
theorem rewriter_read_failure (disk : List Char) :
    rewriterRun disk false = (disk, false, 1) := rfl

/-! ## Insertion lemmas for the Registrar -/

/-- If the anchor does not occur, the `count = 1` substitution is the
identity. -/
theorem insertAfterFirst_id {A I : List Char} :
    ∀ s : List Char, ¬ A <:+: s → insertAfterFirst A I s = s := by
  intro s
  induction s with
  | nil => intro _; rfl
  | cons c rest ih =>
    intro h
    simp only [insertAfterFirst]
    rw [if_neg fun hp => h (List.isPrefixOf_iff_prefix.mp hp).isInfix,
      ih fun hi => h (List.infix_cons hi)]

/-- If the anchor occurs, the `count = 1` substitution inserts the new text
immediately after the leftmost occurrence of the anchor and leaves everything
else — including any further anchor occurrences in the tail — unchanged. -/
theorem insertAfterFirst_spec {A I : List Char} (hA : A ≠ []) :
    ∀ s : List Char, A <:+: s →
      ∃ pre post, s = pre ++ A ++ post ∧
        insertAfterFirst A I s = pre ++ A ++ I ++ post ∧
        ∀ pre2 post2, s = pre2 ++ A ++ post2 → pre.length ≤ pre2.length := by
  intro s
  induction s with
  | nil => intro h; exact absurd (List.infix_nil.mp h) hA
  | cons c rest ih =>
    intro h
    by_cases hp : A.isPrefixOf (c :: rest)
    · have hps : A ++ (c :: rest).drop A.length = c :: rest :=
        List.prefix_iff_eq_append.mp (List.isPrefixOf_iff_prefix.mp hp)
      refine ⟨[], (c :: rest).drop A.length, by rw [List.nil_append]; exact hps.symm,
        ?_, fun pre2 post2 _ => Nat.zero_le _⟩
      simp only [insertAfterFirst, if_pos hp, List.nil_append, List.append_assoc]
    · have hA' : A <:+: rest := by
        rcases List.infix_cons_iff.mp h with hpre | hinf
        · exact absurd (List.isPrefixOf_iff_prefix.mpr hpre) hp
        · exact hinf
      obtain ⟨pre, post, hs, hout, hmin⟩ := ih hA'
      refine ⟨c :: pre, post, by rw [hs]; rfl, ?_, ?_⟩
      · simp only [insertAfterFirst, if_neg hp]
        rw [hout]; rfl
      · intro pre2 post2 heq
        cases pre2 with
        | nil =>
          exfalso
          apply hp
          rw [List.nil_append] at heq
          exact List.isPrefixOf_iff_prefix.mpr ⟨post2, heq.symm⟩
        | cons x pre2' =>
          have : rest = pre2' ++ A ++ post2 := by
            have := heq
            simp only [List.cons_append, List.cons.injEq] at this
            exact this.2
          have := hmin pre2' post2 this
          simp only [List.length_cons]
          omega

/-- The `count = 1` substitution only inserts: the input is a sublist of the
output. -/
theorem sublist_insertAfterFirst (A I : List Char) :
    ∀ s : List Char, List.Sublist s (insertAfterFirst A I s) := by
  intro s
  induction s with
  | nil => exact List.Sublist.refl _
  | cons c rest ih =>
    by_cases hp : A.isPrefixOf (c :: rest)
    · simp only [insertAfterFirst, if_pos hp]
      obtain ⟨post, hpost⟩ := List.isPrefixOf_iff_prefix.mp hp
      have hdrop : (c :: rest).drop A.length = post := by
        rw [← hpost, List.drop_left]
      rw [hdrop, ← hpost, List.append_assoc]
      exact (List.sublist_append_right I post).append_left A
    · simp only [insertAfterFirst, if_neg hp]
      exact ih.cons₂ c

/-- A successful backtracking step returns a positive count after which the
literal tail matches. -/
theorem tryBacktrack_some {rest : List Char} :
    ∀ {fuel k : Nat}, tryBacktrack rest fuel = some k →
      0 < k ∧ childrenTail.isPrefixOf (rest.drop k) := by
  intro fuel
  induction fuel with
  | zero => intro k h; cases h
  | succ f ih =>
    intro k h
    simp only [tryBacktrack] at h
    split_ifs at h with hc
    · injection h with h
      subst h
      exact ⟨Nat.succ_pos f, hc⟩
    · exact ih h

/-- A match of the Home-group regex decomposes the text as
`homeHead ++ mid ++ childrenTail ++ rest2` with `mid` nonempty, the match
covering everything up to the end of `childrenTail`. -/
theorem matchHomeAt_spec {t : List Char} {len : Nat} (h : matchHomeAt t = some len) :
    ∃ mid rest2, mid ≠ [] ∧ t = homeHead ++ mid ++ childrenTail ++ rest2 ∧
      len = homeHead.length + mid.length + childrenTail.length := by
  unfold matchHomeAt at h
  split_ifs at h with hp
  · cases htb : tryBacktrack (t.drop homeHead.length)
        ((t.drop homeHead.length).takeWhile (fun c => c != '\x7d')).length with
    | none => rw [htb] at h; cases h
    | some k =>
      rw [htb] at h
      have hlen : len = homeHead.length + k + childrenTail.length := by
        injection h with h
        omega
      obtain ⟨hk, hcp⟩ := tryBacktrack_some htb
      have hts : homeHead ++ t.drop homeHead.length = t :=
        List.prefix_iff_eq_append.mp (List.isPrefixOf_iff_prefix.mp hp)
      have hcp' : childrenTail ++
          ((t.drop homeHead.length).drop k).drop childrenTail.length =
          (t.drop homeHead.length).drop k :=
        List.prefix_iff_eq_append.mp (List.isPrefixOf_iff_prefix.mp hcp)
      have hkle : k ≤ (t.drop homeHead.length).length := by
        by_contra hgt
        push_neg at hgt
        rw [List.drop_eq_nil_of_le (Nat.le_of_lt hgt)] at hcp
        rw [List.isPrefixOf_length_pos_nil (by decide)] at hcp
        cases hcp
      have hmidlen : ((t.drop homeHead.length).take k).length = k := by
        rw [List.length_take]
        omega
      refine ⟨(t.drop homeHead.length).take k,
        ((t.drop homeHead.length).drop k).drop childrenTail.length, ?_, ?_, ?_⟩
      · intro hnil
        rw [hnil] at hmidlen
        simp at hmidlen
        omega
      · conv_lhs => rw [← hts, ← List.take_append_drop k (t.drop homeHead.length), ← hcp']
        simp [List.append_assoc]
      · rw [hlen, hmidlen]

/-- If the Home-group regex matches nowhere, the `count = 1` substitution is
the identity. -/
theorem subHomeOnce_id {I : List Char} :
    ∀ s : List Char, homeSearch s = false → subHomeOnce I s = s := by
  intro s
  induction s with
  | nil => intro _; rfl
  | cons c rest ih =>
    intro h
    simp only [homeSearch, Bool.or_eq_false_iff] at h
    cases hm : matchHomeAt (c :: rest) with
    | some len => rw [hm] at h; simp at h
    | none =>
      simp only [subHomeOnce, hm]
      rw [ih h.2]

/-- If the Home-group regex matches somewhere, the `count = 1` substitution
inserts the new text immediately after the leftmost (greedy) match, leaving the
matched text and everything around it unchanged. -/
theorem subHomeOnce_spec {I : List Char} :
    ∀ s : List Char, homeSearch s = true →
      ∃ pre mtc post, s = pre ++ mtc ++ post ∧
        (∃ mid, mid ≠ [] ∧ mtc = homeHead ++ mid ++ childrenTail) ∧
        subHomeOnce I s = pre ++ mtc ++ I ++ post ∧
        ∀ i < pre.length, matchHomeAt (s.drop i) = none := by
  intro s
  induction s with
  | nil => intro h; cases h
  | cons c rest ih =>
    intro h
    cases hm : matchHomeAt (c :: rest) with
    | some len =>
      obtain ⟨mid, rest2, hmid, hdec, hlen⟩ := matchHomeAt_spec hm
      refine ⟨[], homeHead ++ mid ++ childrenTail, rest2, ?_, ⟨mid, hmid, rfl⟩, ?_, ?_⟩
      · rw [List.nil_append]
        exact hdec
      · simp only [subHomeOnce, hm]
        have hlen' : len = (homeHead ++ mid ++ childrenTail).length := by
          rw [hlen]
          simp [List.length_append, Nat.add_assoc]
        have htake : (c :: rest).take len = homeHead ++ mid ++ childrenTail := by
          rw [hdec, hlen']
          exact List.take_left _ _
        have hdrop : (c :: rest).drop len = rest2 := by
          rw [hdec, hlen']
          exact List.drop_left _ _
        rw [htake, hdrop]
        simp [List.append_assoc]
      · intro i hi
        exact absurd hi (Nat.not_lt_zero i)
    | none =>
      have hrest : homeSearch rest = true := by
        simp only [homeSearch, hm, Option.isSome_none, Bool.false_or] at h
        exact h
      obtain ⟨pre, mtc, post, hs, hmid, hout, hleft⟩ := ih hrest
      refine ⟨c :: pre, mtc, post, by rw [hs]; rfl, hmid, ?_, ?_⟩
      · simp only [subHomeOnce, hm]
        rw [hout]
        rfl
      · intro i hi
        cases i with
        | zero => exact hm
        | succ i' =>
          simp only [List.length_cons] at hi
          exact hleft i' (by omega)

/-- The Home-group substitution only inserts: the input is a sublist of the
output. -/
theorem sublist_subHomeOnce (I : List Char) :
    ∀ s : List Char, List.Sublist s (subHomeOnce I s) := by
  intro s
  induction s with
  | nil => exact List.Sublist.refl _
  | cons c rest ih =>
    cases hm : matchHomeAt (c :: rest) with
    | some len =>
      simp only [subHomeOnce, hm]
      have hsub : List.Sublist ((c :: rest).take len ++ (c :: rest).drop len)
          ((c :: rest).take len ++ I ++ (c :: rest).drop len) := by
        rw [List.append_assoc]
        exact (List.sublist_append_right I _).append_left _
      rw [List.take_append_drop] at hsub
      exact hsub
    | none =>
      simp only [subHomeOnce, hm]
      exact ih.cons₂ c

/-! ## Occurrence counting under insertions -/

/-- Occurrences in the right part survive prepending. -/
theorem numOcc_append_left (R u v : List Char) : numOcc R v ≤ numOcc R (u ++ v) := by
  induction u with
  | nil => exact Nat.le_refl _
  | cons c u ih =>
    simp only [List.cons_append, numOcc, List.append_eq]
    omega

/-- Inserting a nonempty `I` at a point that no occurrence of `R` straddles
preserves all occurrences of `R`, and contributes one more whenever `R` is a
prefix of `I ++ v`. -/
theorem numOcc_insert {R I : List Char} (hR : R ≠ []) (hI : I ≠ []) :
    ∀ u v : List Char,
      (∀ r₁ r₂, r₁ ≠ [] → r₂ ≠ [] → R = r₁ ++ r₂ → ¬(r₁ <:+ u ∧ r₂ <+: v)) →
      numOcc R (u ++ v) + (if R.isPrefixOf (I ++ v) then 1 else 0) ≤
        numOcc R (u ++ I ++ v) := by
  intro u
  induction u with
  | nil =>
    intro v _
    rw [List.nil_append, List.nil_append]
    cases I with
    | nil => exact absurd rfl hI
    | cons i I' =>
      simp only [List.cons_append, numOcc, List.append_eq]
      have hmono := numOcc_append_left R I' v
      by_cases hx : R.isPrefixOf (i :: (I' ++ v))
      · rw [if_pos hx]
        omega
      · rw [if_neg hx]
        omega
  | cons c u' ih =>
    intro v hns
    have hns' : ∀ r₁ r₂, r₁ ≠ [] → r₂ ≠ [] → R = r₁ ++ r₂ → ¬(r₁ <:+ u' ∧ r₂ <+: v) :=
      fun r₁ r₂ h1 h2 h3 hsp =>
        hns r₁ r₂ h1 h2 h3 ⟨hsp.1.trans (List.suffix_cons c u'), hsp.2⟩
    have hmono := ih v hns'
    simp only [List.cons_append, numOcc, List.append_eq]
    have hind : R.isPrefixOf (c :: (u' ++ v)) = true →
        R.isPrefixOf (c :: (u' ++ I ++ v)) = true := by
      intro hp0
      rw [List.isPrefixOf_iff_prefix] at hp0 ⊢
      rcases List.prefix_cons_iff.mp hp0 with h0 | ⟨t, hRt, ht⟩
      · exact absurd h0 hR
      · by_cases hle : t.length ≤ u'.length
        · have h1 : t = (u' ++ v).take t.length := List.prefix_iff_eq_take.mp ht
          rw [List.take_append_of_le_length hle] at h1
          have htu : t <+: u' := by rw [h1]; exact List.take_prefix _ _
          rw [hRt]
          exact List.cons_prefix_cons.mpr
            ⟨rfl, (htu.trans (List.prefix_append u' I)).trans (List.prefix_append _ v)⟩
        · push_neg at hle
          have hu : u' <+: t :=
            List.prefix_of_prefix_length_le (List.prefix_append u' v) ht (Nat.le_of_lt hle)
          obtain ⟨r, rfl⟩ := hu
          have hrv : r <+: v := (List.prefix_append_right_inj u').mp ht
          have hrne : r ≠ [] := by
            intro h0
            subst h0
            simp at hle
          exact absurd ⟨List.suffix_refl (c :: u'), hrv⟩
            (hns (c :: u') r (by simp) hrne (by rw [hRt]; rfl))
    by_cases h1 : R.isPrefixOf (c :: (u' ++ v))
    · rw [if_pos h1, if_pos (hind h1)]
      omega
    · rw [if_neg h1]
      by_cases h2 : R.isPrefixOf (c :: (u' ++ I ++ v))
      · rw [if_pos h2]
        omega
      · rw [if_neg h2]
        omega

/-- Insertion immediately after an occurrence of `A`, with `A` satisfying the
no-split conditions for `R`: no occurrence of `R` is destroyed, and one is
added when `R` is a prefix of `I ++ v`. -/
theorem numOcc_insert_anchored {A I R u v : List Char} (hR : R ≠ []) (hI : I ≠ [])
    (hns : NoSplit A R) (hu : A <:+ u) :
    numOcc R (u ++ v) + (if R.isPrefixOf (I ++ v) then 1 else 0) ≤
      numOcc R (u ++ I ++ v) := by
  refine numOcc_insert hR hI u v ?_
  rintro r₁ r₂ h1 h2 h3 ⟨hsuf, hpre⟩
  by_cases hle : r₁.length ≤ A.length
  · have hr₁A : r₁ <:+ A := List.suffix_of_suffix_length_le hsuf hu hle
    have he : A.drop (A.length - r₁.length) = r₁ := (List.suffix_iff_eq_drop.mp hr₁A).symm
    have ht : R.take r₁.length = r₁ := by
      rw [h3]
      exact List.take_left' rfl
    have hklt : r₁.length < R.length := by
      rw [h3, List.length_append]
      have := List.length_pos.mpr h2
      omega
    exact hns.2 r₁.length (by omega) (List.length_pos.mpr h1) hklt (he.trans ht.symm)
  · push_neg at hle
    have hAr₁ : A <:+ r₁ := List.suffix_of_suffix_length_le hu hsuf (Nat.le_of_lt hle)
    have hr₁R : r₁ <+: R := ⟨r₂, h3.symm⟩
    have hinf : A <:+: R := hAr₁.isInfix.trans hr₁R.isInfix
    rw [← containsSub_iff, hns.1] at hinf
    exact Bool.false_ne_true hinf

/-- A literal-anchor insertion step never decreases the occurrence count of a
no-split record. -/
theorem insertAfterFirst_numOcc_mono {A I R : List Char} (hA : A ≠ []) (hI : I ≠ [])
    (hR : R ≠ []) (hns : NoSplit A R) (t : List Char) :
    numOcc R t ≤ numOcc R (insertAfterFirst A I t) := by
  by_cases h : A <:+: t
  · obtain ⟨pre, post, hts, hout, _⟩ := insertAfterFirst_spec hA t h
    rw [hout, hts]
    have hx := numOcc_insert_anchored (v := post) hR hI hns (List.suffix_append pre A)
    omega
  · rw [insertAfterFirst_id t h]

/-- When the anchor occurs, a literal-anchor insertion of the record itself
strictly increases its occurrence count. -/
theorem insertAfterFirst_numOcc_succ {A I : List Char} (hA : A ≠ []) (hI : I ≠ [])
    (hns : NoSplit A I) (t : List Char) (h : A <:+: t) :
    numOcc I t + 1 ≤ numOcc I (insertAfterFirst A I t) := by
  obtain ⟨pre, post, hts, hout, _⟩ := insertAfterFirst_spec hA t h
  rw [hout, hts]
  have hx := numOcc_insert_anchored (R := I) (v := post) hI hI hns (List.suffix_append pre A)
  rw [if_pos (List.isPrefixOf_iff_prefix.mpr (List.prefix_append I post))] at hx
  exact hx

/-- The Home-group substitution never decreases the occurrence count of a
record that `childrenTail` (the end of any match) cannot split. -/
theorem subHomeOnce_numOcc_mono {I R : List Char} (hI : I ≠ []) (hR : R ≠ [])
    (hns : NoSplit childrenTail R) (t : List Char) :
    numOcc R t ≤ numOcc R (subHomeOnce I t) := by
  cases hh : homeSearch t with
  | false => rw [subHomeOnce_id t hh]
  | true =>
    obtain ⟨pre, mtc, post, hts, ⟨mid, hmid, hmtc⟩, hout, _⟩ := subHomeOnce_spec t hh
    rw [hout, hts]
    have hsuf : childrenTail <:+ pre ++ mtc := by
      rw [hmtc]
      have := List.suffix_append (pre ++ (homeHead ++ mid)) childrenTail
      simpa [List.append_assoc] using this
    have hx := numOcc_insert_anchored (v := post) hR hI hns hsuf
    omega

/-- When the Home-group regex matches, substituting the record itself strictly
increases its occurrence count. -/
theorem subHomeOnce_numOcc_succ {I : List Char} (hI : I ≠ [])
    (hns : NoSplit childrenTail I) (t : List Char) (hh : homeSearch t = true) :
    numOcc I t + 1 ≤ numOcc I (subHomeOnce I t) := by
  obtain ⟨pre, mtc, post, hts, ⟨mid, hmid, hmtc⟩, hout, _⟩ := subHomeOnce_spec t hh
  rw [hout, hts]
  have hsuf : childrenTail <:+ pre ++ mtc := by
    rw [hmtc]
    have := List.suffix_append (pre ++ (homeHead ++ mid)) childrenTail
    simpa [List.append_assoc] using this
  have hx := numOcc_insert_anchored (R := I) (v := post) hI hI hns hsuf
  rw [if_pos (List.isPrefixOf_iff_prefix.mpr (List.prefix_append I post))] at hx
  exact hx

/-! ## Per-step Registrar lemmas -/

/-- A missed `containsSub` certifies absence. -/
theorem not_infix_of_containsSub_false {p t : List Char} (h : containsSub p t = false) :
    ¬ p <:+: t :=
  fun hi => Bool.false_ne_true (h ▸ (containsSub_iff p t).mpr hi)

/-- `buildFileIns` survives every insertion point. -/
theorem recordSafe_buildFileIns : RecordSafe buildFileIns :=
  ⟨by decide, by decide, by decide, by decide, by decide, by decide, by decide⟩

/-- `fileRefIns` survives every insertion point. -/
theorem recordSafe_fileRefIns : RecordSafe fileRefIns :=
  ⟨by decide, by decide, by decide, by decide, by decide, by decide, by decide⟩

/-- `homeGroupIns` survives every insertion point. -/
theorem recordSafe_homeGroupIns : RecordSafe homeGroupIns :=
  ⟨by decide, by decide, by decide, by decide, by decide, by decide, by decide⟩

/-- `testHomeIns` survives every insertion point. -/
theorem recordSafe_testHomeIns : RecordSafe testHomeIns :=
  ⟨by decide, by decide, by decide, by decide, by decide, by decide, by decide⟩

/-- `sourcesIns` survives every insertion point. -/
theorem recordSafe_sourcesIns : RecordSafe sourcesIns :=
  ⟨by decide, by decide, by decide, by decide, by decide, by decide, by decide⟩

/-- `testSourcesIns` survives every insertion point. -/
theorem recordSafe_testSourcesIns : RecordSafe testSourcesIns :=
  ⟨by decide, by decide, by decide, by decide, by decide, by decide, by decide⟩

/-- Step 1 never decreases the count of a safe record. -/
theorem regStep1_mono {R : List Char} (h : RecordSafe R) (t : List Char) :
    numOcc R t ≤ numOcc R (regStep1 t) :=
  insertAfterFirst_numOcc_mono (by decide) (by decide) h.1 h.2.1 t

/-- Step 2 never decreases the count of a safe record. -/
theorem regStep2_mono {R : List Char} (h : RecordSafe R) (t : List Char) :
    numOcc R t ≤ numOcc R (regStep2 t) :=
  insertAfterFirst_numOcc_mono (by decide) (by decide) h.1 h.2.2.1 t

/-- Step 3 never decreases the count of a safe record. -/
theorem regStep3_mono {R : List Char} (h : RecordSafe R) (t : List Char) :
    numOcc R t ≤ numOcc R (regStep3 t) :=
  insertAfterFirst_numOcc_mono (by decide) (by decide) h.1 h.2.2.2.1 t

/-- Step 4 never decreases the count of a safe record. -/
theorem regStep4_mono {R : List Char} (h : RecordSafe R) (t : List Char) :
    numOcc R t ≤ numOcc R (regStep4 t) := by
  unfold regStep4
  split_ifs with hh
  · exact subHomeOnce_numOcc_mono (by decide) h.1 h.2.2.2.2.1 t
  · exact Nat.le_refl _

/-- Step 5 never decreases the count of a safe record. -/
theorem regStep5_mono {R : List Char} (h : RecordSafe R) (t : List Char) :
    numOcc R t ≤ numOcc R (regStep5 t) :=
  insertAfterFirst_numOcc_mono (by decide) (by decide) h.1 h.2.2.2.2.2.1 t

/-- Step 6 never decreases the count of a safe record. -/
theorem regStep6_mono {R : List Char} (h : RecordSafe R) (t : List Char) :
    numOcc R t ≤ numOcc R (regStep6 t) := by
  unfold regStep6
  split_ifs with hh
  · exact insertAfterFirst_numOcc_mono (by decide) (by decide) h.1 h.2.2.2.2.2.2 t
  · exact Nat.le_refl _

/-- Steps 2–6 never decrease the count of a safe record. -/
theorem regTail2 {R : List Char} (h : RecordSafe R) (t : List Char) :
    numOcc R t ≤ numOcc R (regStep6 (regStep5 (regStep4 (regStep3 (regStep2 t))))) :=
  le_trans (regStep2_mono h t) (le_trans (regStep3_mono h _)
    (le_trans (regStep4_mono h _) (le_trans (regStep5_mono h _) (regStep6_mono h _))))

/-- Steps 3–6 never decrease the count of a safe record. -/
theorem regTail3 {R : List Char} (h : RecordSafe R) (t : List Char) :
    numOcc R t ≤ numOcc R (regStep6 (regStep5 (regStep4 (regStep3 t)))) :=
  le_trans (regStep3_mono h t)
    (le_trans (regStep4_mono h _) (le_trans (regStep5_mono h _) (regStep6_mono h _)))

/-- Steps 4–6 never decrease the count of a safe record. -/
theorem regTail4 {R : List Char} (h : RecordSafe R) (t : List Char) :
    numOcc R t ≤ numOcc R (regStep6 (regStep5 (regStep4 t))) :=
  le_trans (regStep4_mono h t) (le_trans (regStep5_mono h _) (regStep6_mono h _))

/-- Steps 5–6 never decrease the count of a safe record. -/
theorem regTail5 {R : List Char} (h : RecordSafe R) (t : List Char) :
    numOcc R t ≤ numOcc R (regStep6 (regStep5 t)) :=
  le_trans (regStep5_mono h t) (regStep6_mono h _)

/-- A full Registrar run never decreases the count of a safe record. -/
theorem add_vm_files_mono {R : List Char} (h : RecordSafe R) (t : List Char) :
    numOcc R t ≤ numOcc R (add_vm_files t) :=
  le_trans (regStep1_mono h t) (regTail2 h _)

/-- Step 4 only inserts. -/
theorem regStep4_sublist (t : List Char) : List.Sublist t (regStep4 t) := by
  unfold regStep4
  split_ifs with h
  · exact sublist_subHomeOnce _ t
  · exact List.Sublist.refl t

/-- Step 6 only inserts. -/
theorem regStep6_sublist (t : List Char) : List.Sublist t (regStep6 t) := by
  unfold regStep6
  split_ifs with h
  · exact sublist_insertAfterFirst _ _ t
  · exact List.Sublist.refl t

/-! ## Claim theorems for the Registrar -/

/-- **C5** — for each of the six anchors: if the anchor pattern occurs, exactly
one new record is inserted immediately after the leftmost match, the matched
anchor text itself is unmodified, and everything else — including any further
occurrences of the anchor in the tail — is untouched (`count = 1`). -/
theorem registrar_anchor_inserts (s : List Char) :
    (containsSub buildFileAnchor s = true →
      ∃ pre post, s = pre ++ buildFileAnchor ++ post ∧
        regStep1 s = pre ++ buildFileAnchor ++ buildFileIns ++ post ∧
        ∀ pre2 post2, s = pre2 ++ buildFileAnchor ++ post2 → pre.length ≤ pre2.length) ∧
    (containsSub fileRefAnchor s = true →
      ∃ pre post, s = pre ++ fileRefAnchor ++ post ∧
        regStep2 s = pre ++ fileRefAnchor ++ fileRefIns ++ post ∧
        ∀ pre2 post2, s = pre2 ++ fileRefAnchor ++ post2 → pre.length ≤ pre2.length) ∧
    (containsSub homeGroupAnchor s = true →
      ∃ pre post, s = pre ++ homeGroupAnchor ++ post ∧
        regStep3 s = pre ++ homeGroupAnchor ++ homeGroupIns ++ post ∧
        ∀ pre2 post2, s = pre2 ++ homeGroupAnchor ++ post2 → pre.length ≤ pre2.length) ∧
    (homeSearch s = true →
      ∃ pre mtc post, s = pre ++ mtc ++ post ∧
        (∃ mid, mid ≠ [] ∧ mtc = homeHead ++ mid ++ childrenTail) ∧
        regStep4 s = pre ++ mtc ++ testHomeIns ++ post ∧
        ∀ i < pre.length, matchHomeAt (s.drop i) = none) ∧
    (containsSub sourcesAnchor s = true →
      ∃ pre post, s = pre ++ sourcesAnchor ++ post ∧
        regStep5 s = pre ++ sourcesAnchor ++ sourcesIns ++ post ∧
        ∀ pre2 post2, s = pre2 ++ sourcesAnchor ++ post2 → pre.length ≤ pre2.length) ∧
    (containsSub testSourcesAnchor s = true →
      ∃ pre post, s = pre ++ testSourcesAnchor ++ post ∧
        regStep6 s = pre ++ testSourcesAnchor ++ testSourcesIns ++ post ∧
        ∀ pre2 post2, s = pre2 ++ testSourcesAnchor ++ post2 → pre.length ≤ pre2.length) := by
  refine ⟨?_, ?_, ?_, ?_, ?_, ?_⟩
  · intro h
    exact insertAfterFirst_spec (by decide) s ((containsSub_iff _ s).mp h)
  · intro h
    exact insertAfterFirst_spec (by decide) s ((containsSub_iff _ s).mp h)
  · intro h
    exact insertAfterFirst_spec (by decide) s ((containsSub_iff _ s).mp h)
  · intro h
    have e : regStep4 s = subHomeOnce testHomeIns s := by
      unfold regStep4
      rw [if_pos h]
    rw [e]
    exact subHomeOnce_spec s h
  · intro h
    exact insertAfterFirst_spec (by decide) s ((containsSub_iff _ s).mp h)
  · intro h
    have e : regStep6 s = insertAfterFirst testSourcesAnchor testSourcesIns s := by
      unfold regStep6
      rw [if_pos h]
    rw [e]
    exact insertAfterFirst_spec (by decide) s ((containsSub_iff _ s).mp h)

/-- Witness for **C5** on a text containing all six anchors. -/
theorem registrar_anchor_inserts_witness :
    (∃ pre post, regAllAnchorsText = pre ++ buildFileAnchor ++ post ∧
        regStep1 regAllAnchorsText = pre ++ buildFileAnchor ++ buildFileIns ++ post ∧
        ∀ pre2 post2, regAllAnchorsText = pre2 ++ buildFileAnchor ++ post2 →
          pre.length ≤ pre2.length) ∧
    (∃ pre post, regAllAnchorsText = pre ++ fileRefAnchor ++ post ∧
        regStep2 regAllAnchorsText = pre ++ fileRefAnchor ++ fileRefIns ++ post ∧
        ∀ pre2 post2, regAllAnchorsText = pre2 ++ fileRefAnchor ++ post2 →
          pre.length ≤ pre2.length) ∧
    (∃ pre mtc post, regAllAnchorsText = pre ++ mtc ++ post ∧
        (∃ mid, mid ≠ [] ∧ mtc = homeHead ++ mid ++ childrenTail) ∧
        regStep4 regAllAnchorsText = pre ++ mtc ++ testHomeIns ++ post ∧
        ∀ i < pre.length, matchHomeAt (regAllAnchorsText.drop i) = none) ∧
    (∃ pre post, regAllAnchorsText = pre ++ testSourcesAnchor ++ post ∧
        regStep6 regAllAnchorsText = pre ++ testSourcesAnchor ++ testSourcesIns ++ post ∧
        ∀ pre2 post2, regAllAnchorsText = pre2 ++ testSourcesAnchor ++ post2 →
          pre.length ≤ pre2.length) :=
  ⟨(registrar_anchor_inserts regAllAnchorsText).1 (by decide),
   (registrar_anchor_inserts regAllAnchorsText).2.1 (by decide),
   (registrar_anchor_inserts regAllAnchorsText).2.2.2.1 (by decide),
   (registrar_anchor_inserts regAllAnchorsText).2.2.2.2.2 (by decide)⟩

/-- **C6** — for each of the six anchors: if the anchor pattern does not occur,
that insertion is a silent no-op (the text is returned unchanged and the
remaining insertions still run — the model raises no errors). -/
theorem registrar_anchor_missing (s : List Char) :
    (containsSub buildFileAnchor s = false → regStep1 s = s) ∧
    (containsSub fileRefAnchor s = false → regStep2 s = s) ∧
    (containsSub homeGroupAnchor s = false → regStep3 s = s) ∧
    (homeSearch s = false → regStep4 s = s) ∧
    (containsSub sourcesAnchor s = false → regStep5 s = s) ∧
    (containsSub testSourcesAnchor s = false → regStep6 s = s) := by
  refine ⟨?_, ?_, ?_, ?_, ?_, ?_⟩
  · exact fun h => insertAfterFirst_id s (not_infix_of_containsSub_false h)
  · exact fun h => insertAfterFirst_id s (not_infix_of_containsSub_false h)
  · exact fun h => insertAfterFirst_id s (not_infix_of_containsSub_false h)
  · intro h
    unfold regStep4
    rw [h]
    rfl
  · exact fun h => insertAfterFirst_id s (not_infix_of_containsSub_false h)
  · intro h
    unfold regStep6
    rw [h]
    rfl

/-- Witness for **C6** on a text containing no anchor. -/
theorem registrar_anchor_missing_witness :
    regStep1 regNoAnchorsText = regNoAnchorsText ∧
    regStep2 regNoAnchorsText = regNoAnchorsText ∧
    regStep3 regNoAnchorsText = regNoAnchorsText ∧
    regStep4 regNoAnchorsText = regNoAnchorsText ∧
    regStep5 regNoAnchorsText = regNoAnchorsText ∧
    regStep6 regNoAnchorsText = regNoAnchorsText :=
  ⟨(registrar_anchor_missing _).1 (by decide),
   (registrar_anchor_missing _).2.1 (by decide),
   (registrar_anchor_missing _).2.2.1 (by decide),
   (registrar_anchor_missing _).2.2.2.1 (by decide),
   (registrar_anchor_missing _).2.2.2.2.1 (by decide),
   (registrar_anchor_missing _).2.2.2.2.2 (by decide)⟩

/-- **C7** — non-idempotence: for every input text and every anchor whose
pattern matched when its step ran in both the first and the second Registrar
run, the text after two runs contains (at least) two copies of the record that
the step inserts. -/
theorem registrar_not_idempotent (s : List Char) :
    (containsSub buildFileAnchor s = true →
     containsSub buildFileAnchor (add_vm_files s) = true →
     2 ≤ numOcc buildFileIns (add_vm_files (add_vm_files s))) ∧
    (containsSub fileRefAnchor (regStep1 s) = true →
     containsSub fileRefAnchor (regStep1 (add_vm_files s)) = true →
     2 ≤ numOcc fileRefIns (add_vm_files (add_vm_files s))) ∧
    (containsSub homeGroupAnchor (regStep2 (regStep1 s)) = true →
     containsSub homeGroupAnchor (regStep2 (regStep1 (add_vm_files s))) = true →
     2 ≤ numOcc homeGroupIns (add_vm_files (add_vm_files s))) ∧
    (homeSearch (regStep3 (regStep2 (regStep1 s))) = true →
     homeSearch (regStep3 (regStep2 (regStep1 (add_vm_files s)))) = true →
     2 ≤ numOcc testHomeIns (add_vm_files (add_vm_files s))) ∧
    (containsSub sourcesAnchor (regStep4 (regStep3 (regStep2 (regStep1 s)))) = true →
     containsSub sourcesAnchor
       (regStep4 (regStep3 (regStep2 (regStep1 (add_vm_files s))))) = true →
     2 ≤ numOcc sourcesIns (add_vm_files (add_vm_files s))) ∧
    (containsSub testSourcesAnchor
       (regStep5 (regStep4 (regStep3 (regStep2 (regStep1 s))))) = true →
     containsSub testSourcesAnchor
       (regStep5 (regStep4 (regStep3 (regStep2 (regStep1 (add_vm_files s)))))) = true →
     2 ≤ numOcc testSourcesIns (add_vm_files (add_vm_files s))) := by
  refine ⟨?_, ?_, ?_, ?_, ?_, ?_⟩
  · intro h1 h2
    have hsafe := recordSafe_buildFileIns
    have s1 : numOcc buildFileIns s + 1 ≤ numOcc buildFileIns (regStep1 s) :=
      insertAfterFirst_numOcc_succ (by decide) (by decide) hsafe.2.1 s
        ((containsSub_iff _ s).mp h1)
    have s2 : numOcc buildFileIns (regStep1 s) ≤ numOcc buildFileIns (add_vm_files s) :=
      regTail2 hsafe _
    have s3 : numOcc buildFileIns (add_vm_files s) + 1 ≤
        numOcc buildFileIns (regStep1 (add_vm_files s)) :=
      insertAfterFirst_numOcc_succ (by decide) (by decide) hsafe.2.1 _
        ((containsSub_iff _ _).mp h2)
    have s4 : numOcc buildFileIns (regStep1 (add_vm_files s)) ≤
        numOcc buildFileIns (add_vm_files (add_vm_files s)) :=
      regTail2 hsafe _
    omega
  · intro h1 h2
    have hsafe := recordSafe_fileRefIns
    have s1 : numOcc fileRefIns (regStep1 s) + 1 ≤
        numOcc fileRefIns (regStep2 (regStep1 s)) :=
      insertAfterFirst_numOcc_succ (by decide) (by decide) hsafe.2.2.1 _
        ((containsSub_iff _ _).mp h1)
    have s2 : numOcc fileRefIns (regStep2 (regStep1 s)) ≤
        numOcc fileRefIns (add_vm_files s) :=
      regTail3 hsafe _
    have s0 : numOcc fileRefIns (add_vm_files s) ≤
        numOcc fileRefIns (regStep1 (add_vm_files s)) :=
      regStep1_mono hsafe _
    have s3 : numOcc fileRefIns (regStep1 (add_vm_files s)) + 1 ≤
        numOcc fileRefIns (regStep2 (regStep1 (add_vm_files s))) :=
      insertAfterFirst_numOcc_succ (by decide) (by decide) hsafe.2.2.1 _
        ((containsSub_iff _ _).mp h2)
    have s4 : numOcc fileRefIns (regStep2 (regStep1 (add_vm_files s))) ≤
        numOcc fileRefIns (add_vm_files (add_vm_files s)) :=
      regTail3 hsafe _
    omega
  · intro h1 h2
    have hsafe := recordSafe_homeGroupIns
    have s1 : numOcc homeGroupIns (regStep2 (regStep1 s)) + 1 ≤
        numOcc homeGroupIns (regStep3 (regStep2 (regStep1 s))) :=
      insertAfterFirst_numOcc_succ (by decide) (by decide) hsafe.2.2.2.1 _
        ((containsSub_iff _ _).mp h1)
    have s2 : numOcc homeGroupIns (regStep3 (regStep2 (regStep1 s))) ≤
        numOcc homeGroupIns (add_vm_files s) :=
      regTail4 hsafe _
    have s0 : numOcc homeGroupIns (add_vm_files s) ≤
        numOcc homeGroupIns (regStep2 (regStep1 (add_vm_files s))) :=
      le_trans (regStep1_mono hsafe _) (regStep2_mono hsafe _)
    have s3 : numOcc homeGroupIns (regStep2 (regStep1 (add_vm_files s))) + 1 ≤
        numOcc homeGroupIns (regStep3 (regStep2 (regStep1 (add_vm_files s)))) :=
      insertAfterFirst_numOcc_succ (by decide) (by decide) hsafe.2.2.2.1 _
        ((containsSub_iff _ _).mp h2)
    have s4 : numOcc homeGroupIns (regStep3 (regStep2 (regStep1 (add_vm_files s)))) ≤
        numOcc homeGroupIns (add_vm_files (add_vm_files s)) :=
      regTail4 hsafe _
    omega
  · intro h1 h2
    have hsafe := recordSafe_testHomeIns
    have e1 : regStep4 (regStep3 (regStep2 (regStep1 s))) =
        subHomeOnce testHomeIns (regStep3 (regStep2 (regStep1 s))) := by
      unfold regStep4
      rw [if_pos h1]
    have e2 : regStep4 (regStep3 (regStep2 (regStep1 (add_vm_files s)))) =
        subHomeOnce testHomeIns (regStep3 (regStep2 (regStep1 (add_vm_files s)))) := by
      unfold regStep4
      rw [if_pos h2]
    have s1 : numOcc testHomeIns (regStep3 (regStep2 (regStep1 s))) + 1 ≤
        numOcc testHomeIns (regStep4 (regStep3 (regStep2 (regStep1 s)))) := by
      rw [e1]
      exact subHomeOnce_numOcc_succ (by decide) hsafe.2.2.2.2.1 _ h1
    have s2 : numOcc testHomeIns (regStep4 (regStep3 (regStep2 (regStep1 s)))) ≤
        numOcc testHomeIns (add_vm_files s) :=
      regTail5 hsafe _
    have s0 : numOcc testHomeIns (add_vm_files s) ≤
        numOcc testHomeIns (regStep3 (regStep2 (regStep1 (add_vm_files s)))) :=
      le_trans (regStep1_mono hsafe _)
        (le_trans (regStep2_mono hsafe _) (regStep3_mono hsafe _))
    have s3 : numOcc testHomeIns (regStep3 (regStep2 (regStep1 (add_vm_files s)))) + 1 ≤
        numOcc testHomeIns (regStep4 (regStep3 (regStep2 (regStep1 (add_vm_files s))))) := by
      rw [e2]
      exact subHomeOnce_numOcc_succ (by decide) hsafe.2.2.2.2.1 _ h2
    have s4 : numOcc testHomeIns
        (regStep4 (regStep3 (regStep2 (regStep1 (add_vm_files s))))) ≤
        numOcc testHomeIns (add_vm_files (add_vm_files s)) :=
      regTail5 hsafe _
    omega
  · intro h1 h2
    have hsafe := recordSafe_sourcesIns
    have s1 : numOcc sourcesIns (regStep4 (regStep3 (regStep2 (regStep1 s)))) + 1 ≤
        numOcc sourcesIns (regStep5 (regStep4 (regStep3 (regStep2 (regStep1 s))))) :=
      insertAfterFirst_numOcc_succ (by decide) (by decide) hsafe.2.2.2.2.2.1 _
        ((containsSub_iff _ _).mp h1)
    have s2 : numOcc sourcesIns (regStep5 (regStep4 (regStep3 (regStep2 (regStep1 s))))) ≤
        numOcc sourcesIns (add_vm_files s) :=
      regStep6_mono hsafe _
    have s0 : numOcc sourcesIns (add_vm_files s) ≤
        numOcc sourcesIns (regStep4 (regStep3 (regStep2 (regStep1 (add_vm_files s))))) :=
      le_trans (regStep1_mono hsafe _) (le_trans (regStep2_mono hsafe _)
        (le_trans (regStep3_mono hsafe _) (regStep4_mono hsafe _)))
    have s3 : numOcc sourcesIns
        (regStep4 (regStep3 (regStep2 (regStep1 (add_vm_files s))))) + 1 ≤
        numOcc sourcesIns
          (regStep5 (regStep4 (regStep3 (regStep2 (regStep1 (add_vm_files s)))))) :=
      insertAfterFirst_numOcc_succ (by decide) (by decide) hsafe.2.2.2.2.2.1 _
        ((containsSub_iff _ _).mp h2)
    have s4 : numOcc sourcesIns
        (regStep5 (regStep4 (regStep3 (regStep2 (regStep1 (add_vm_files s)))))) ≤
        numOcc sourcesIns (add_vm_files (add_vm_files s)) :=
      regStep6_mono hsafe _
    omega
  · intro h1 h2
    have hsafe := recordSafe_testSourcesIns
    have e1 : regStep6 (regStep5 (regStep4 (regStep3 (regStep2 (regStep1 s))))) =
        insertAfterFirst testSourcesAnchor testSourcesIns
          (regStep5 (regStep4 (regStep3 (regStep2 (regStep1 s))))) := by
      unfold regStep6
      rw [if_pos h1]
    have e2 : regStep6 (regStep5 (regStep4 (regStep3 (regStep2
        (regStep1 (add_vm_files s)))))) =
        insertAfterFirst testSourcesAnchor testSourcesIns
          (regStep5 (regStep4 (regStep3 (regStep2 (regStep1 (add_vm_files s)))))) := by
      unfold regStep6
      rw [if_pos h2]
    have s1 : numOcc testSourcesIns
        (regStep5 (regStep4 (regStep3 (regStep2 (regStep1 s))))) + 1 ≤
        numOcc testSourcesIns (add_vm_files s) := by
      show _ ≤ numOcc testSourcesIns
        (regStep6 (regStep5 (regStep4 (regStep3 (regStep2 (regStep1 s))))))
      rw [e1]
      exact insertAfterFirst_numOcc_succ (by decide) (by decide) hsafe.2.2.2.2.2.2 _
        ((containsSub_iff _ _).mp h1)
    have s0 : numOcc testSourcesIns (add_vm_files s) ≤
        numOcc testSourcesIns
          (regStep5 (regStep4 (regStep3 (regStep2 (regStep1 (add_vm_files s)))))) :=
      le_trans (regStep1_mono hsafe _) (le_trans (regStep2_mono hsafe _)
        (le_trans (regStep3_mono hsafe _)
          (le_trans (regStep4_mono hsafe _) (regStep5_mono hsafe _))))
    have s3 : numOcc testSourcesIns
        (regStep5 (regStep4 (regStep3 (regStep2 (regStep1 (add_vm_files s)))))) + 1 ≤
        numOcc testSourcesIns (add_vm_files (add_vm_files s)) := by
      show _ ≤ numOcc testSourcesIns
        (regStep6 (regStep5 (regStep4 (regStep3 (regStep2 (regStep1 (add_vm_files s)))))))
      rw [e2]
      exact insertAfterFirst_numOcc_succ (by decide) (by decide) hsafe.2.2.2.2.2.2 _
        ((containsSub_iff _ _).mp h2)
    omega

/-- Witness for **C7**: two runs on a text containing all six anchors leave two
copies of every inserted record. -/
theorem registrar_not_idempotent_witness :
    2 ≤ numOcc buildFileIns (add_vm_files (add_vm_files regAllAnchorsText)) ∧
    2 ≤ numOcc fileRefIns (add_vm_files (add_vm_files regAllAnchorsText)) ∧
    2 ≤ numOcc homeGroupIns (add_vm_files (add_vm_files regAllAnchorsText)) ∧
    2 ≤ numOcc testHomeIns (add_vm_files (add_vm_files regAllAnchorsText)) ∧
    2 ≤ numOcc sourcesIns (add_vm_files (add_vm_files regAllAnchorsText)) ∧
    2 ≤ numOcc testSourcesIns (add_vm_files (add_vm_files regAllAnchorsText)) :=
  ⟨(registrar_not_idempotent regAllAnchorsText).1 (by decide) (by decide),
   (registrar_not_idempotent regAllAnchorsText).2.1 (by decide) (by decide),
   (registrar_not_idempotent regAllAnchorsText).2.2.1 (by decide) (by decide),
   (registrar_not_idempotent regAllAnchorsText).2.2.2.1 (by decide) (by decide),
   (registrar_not_idempotent regAllAnchorsText).2.2.2.2.1 (by decide) (by decide),
   (registrar_not_idempotent regAllAnchorsText).2.2.2.2.2 (by decide) (by decide)⟩

/-- **C8** — the Registrar overwrites the descriptor file unconditionally and
prints the same two fixed messages whether or not any anchor matched; in
particular on a text with no anchors it writes the text back unchanged. -/
theorem registrar_unconditional_write :
    (∀ disk : List Char, registrarRun disk = (add_vm_files disk, true, registrarMessages)) ∧
    registrarRun regNoAnchorsText = (regNoAnchorsText, true, registrarMessages) := by
  refine ⟨fun disk => rfl, ?_⟩
  have h : add_vm_files regNoAnchorsText = regNoAnchorsText := by decide
  unfold registrarRun
  rw [h]

/-- **C9** — the Registrar's transformation is insertion-only: every character
of the input is preserved, unchanged and in order, in the output (the input is
a sublist of the output). -/
theorem registrar_insertion_only (s : List Char) :
    List.Sublist s (add_vm_files s) :=
  (((((sublist_insertAfterFirst buildFileAnchor buildFileIns s).trans
      (sublist_insertAfterFirst fileRefAnchor fileRefIns _)).trans
      (sublist_insertAfterFirst homeGroupAnchor homeGroupIns _)).trans
      (regStep4_sublist _)).trans
      (sublist_insertAfterFirst sourcesAnchor sourcesIns _)).trans
      (regStep6_sublist _)

end JazzHarmonyQuiz
